import Mathlib

/-!
# Verification of the commit-wall-art generator

A shallow embedding of `generate.py`.  Calendar dates are modelled as
integers counting days from a fixed Monday (day 0), so that
`d % 7` is exactly Python's `datetime.weekday()` convention
(Monday = 0, …, Sunday = 6); Python's `%` on integers agrees with
`Int.emod`.  The external collaborators (the glyph renderer, the
versioning tool) are modelled at their interface boundary: the renderer's
output is an argument (a list of rows of characters), and the staging /
checkpoint operations are success oracles indexed by call position.
-/

namespace GenerateArt

/-- Python `datetime.weekday()`: Monday = 0, …, Sunday = 6. -/
def weekday (d : Int) : Int := d % 7

/-- `generate.py` line 61: `sunday0 = start - timedelta(days=(dow + 1) % 7)`
where `dow = start.weekday()`. -/
def sunday0 (start : Int) : Int := start - (weekday start + 1) % 7

/-- `d = sunday0 + timedelta(weeks=col, days=row)` (lines 80 and 134). -/
def cellDate (origin : Int) (col : Int) (row : Nat) : Int := origin + 7 * col + row

/-! ## Glyph (Figlet) pattern normalization, lines 117–129 -/

/-- `width = max(len(line) for line in art) if art else 0` (line 122). -/
def width (art : List (List Char)) : Nat := (art.map List.length).foldr max 0

/-- Python `str.ljust(w)`: right-pad with blanks to length `w`. -/
def ljust (w : Nat) (l : List Char) : List Char := l ++ List.replicate (w - l.length) ' '

/-- `" " * width`, the blank padding row (line 126). -/
def blankRow (w : Nat) : List Char := List.replicate w ' '

/-- Lines 122–129: pad to 7 rows (extra blank row in the bottom half when the
pad count is odd), or truncate to the first 7 rows, then `ljust` every row to
the pre-computed maximum width. -/
def normalize (art : List (List Char)) : List (List Char) :=
  (if art.length < 7 then
      List.replicate ((7 - art.length) / 2) (blankRow (width art)) ++ art
        ++ List.replicate ((7 - art.length) - (7 - art.length) / 2)
            (blankRow (width art))
    else if art.length > 7 then art.take 7
    else art).map (ljust (width art))

/-- `art[row][col]` on the normalized matrix (indices are in range there; the
blank default only covers out-of-range access, which the loops never perform). -/
def charAt (art : List (List Char)) (row col : Nat) : Char :=
  (art.getD row []).getD col ' '

/-- Traversal order of the glyph loops (lines 131–132): column-major,
column ascending over `range(width)`, then row ascending over `range(7)`. -/
def glyphCellsAll (w : Nat) : List (Nat × Nat) :=
  (List.range w).flatMap fun col => (List.range 7).map fun row => (col, row)

/-- Lines 137–138: the global validity window test of the glyph branch:
drop when `d_date < start`, and when `end_date` is set and `d_date > end_date`. -/
def inGlobalWindow (start : Int) (endOpt : Option Int) (d : Int) : Bool :=
  !decide (d < start) &&
    (match endOpt with
     | some e => !decide (e < d)
     | none => true)

/-- The scheduling units of the glyph branch (lines 131–138): the active
in-window cells `(col, row)` in traversal order.  A cell is active iff its
normalized character is not a blank (line 133). -/
def glyphUnits (art : List (List Char)) (start : Int) (endOpt : Option Int) :
    List (Nat × Nat) :=
  (glyphCellsAll (width art)).filter fun cr =>
    decide (charAt (normalize art) cr.2 cr.1 ≠ ' ') &&
      inGlobalWindow start endOpt (cellDate (sunday0 start) cr.1 cr.2)

/-- One content line appended by the glyph branch (line 154), recorded as the
tuple of its interpolated fields; the format string is injective on them. -/
structure GLine where
  date : Int
  row : Nat
  col : Nat
  ch : Char
  sub : Nat
  total : Int
deriving DecidableEq

/-- Lines 152–154: the sub-events of one glyph unit, `i` ranging over
`range(commits_per_day)`; `Int.toNat` mirrors Python's empty `range` for a
non-positive argument. -/
def glyphSubs (origin : Int) (na : List (List Char)) (cpd : Int) (cr : Nat × Nat) :
    List GLine :=
  (List.range cpd.toNat).map fun i =>
    { date := cellDate origin cr.1 cr.2, row := cr.2, col := cr.1,
      ch := charAt na cr.2 cr.1, sub := i + 1, total := cpd }

/-- All content lines appended by the glyph branch, in emission order. -/
def glyphLines (art : List (List Char)) (start : Int) (endOpt : Option Int)
    (cpd : Int) : List GLine :=
  (glyphUnits art start endOpt).flatMap (glyphSubs (sunday0 start) (normalize art) cpd)

/-- The one fatal error of the glyph branch (lines 118–120): the renderer
produced zero rows. -/
inductive GlyphErr where
  | patternEmpty
deriving DecidableEq

/-- The glyph branch as a whole (lines 115–164): fail on an empty render,
otherwise produce the emitted lines. -/
def runGlyph (art : List (List Char)) (start : Int) (endOpt : Option Int)
    (cpd : Int) : Except GlyphErr (List GLine) :=
  if art.isEmpty then .error .patternEmpty else .ok (glyphLines art start endOpt cpd)

/-! ## Manual pattern branch, lines 69–113 -/

/-- One element of `manual_positions`: the four JSON keys the code reads, each
possibly absent.  `colsKey = some []` models a present-but-empty `"cols"`. -/
structure ManualEntry where
  colsKey : Option (List Int)
  colKey : Option Int
  startKey : Option Int
  endKey : Option Int
deriving DecidableEq

/-- An uncaught Python `KeyError` on a missing required key of an entry. -/
inductive ManualErr where
  | keyError (field : String)
deriving DecidableEq

/-- Line 72: `cols = entry.get("cols") or [entry["col"]]` — an absent or
empty (falsy) `"cols"` falls back to `[entry["col"]]`, which raises
`KeyError` when `"col"` is also absent. -/
def entryCols (e : ManualEntry) : Except ManualErr (List Int) :=
  match e.colsKey with
  | some (c :: cs) => .ok (c :: cs)
  | _ =>
    match e.colKey with
    | some c => .ok [c]
    | none => .error (.keyError "col")

/-- Lines 73–76: `entry["start_date"]` then `entry["end_date"]`, each raising
`KeyError` when absent (start is read first). -/
def entryWindow (e : ManualEntry) : Except ManualErr (Int × Int) :=
  match e.startKey, e.endKey with
  | some s, some t => .ok (s, t)
  | none, _ => .error (.keyError "start_date")
  | some _, none => .error (.keyError "end_date")

/-- One content line appended by the manual branch (line 100), as the tuple of
its interpolated fields. -/
structure MLine where
  date : Int
  row : Nat
  col : Int
  sub : Nat
  total : Int
  entry : Nat
deriving DecidableEq

/-- Lines 98–100: the `range(commits_per_day)` sub-events of one kept manual
cell; `Int.toNat` mirrors Python's empty `range` for a non-positive argument. -/
def rowSubs (origin : Int) (cpd : Int) (eidx : Nat) (col : Int) (row : Nat) :
    List MLine :=
  (List.range cpd.toNat).map fun i =>
    { date := cellDate origin col row, row := row, col := col,
      sub := i + 1, total := cpd, entry := eidx }

/-- Lines 79–100 for one declared column: rows 0–6 in order, keeping a row iff
its date lies in the entry's inclusive window
(`if d_date < start_seg or d_date > end_seg: continue`). -/
def colLines (origin : Int) (cpd : Int) (eidx : Nat) (s t : Int) (col : Int) :
    List MLine :=
  ((List.range 7).filter fun row =>
      decide (¬(cellDate origin col row < s ∨ t < cellDate origin col row))).flatMap
    (rowSubs origin cpd eidx col)

/-- Lines 78–100: for each declared column in list order, for each row 0–6,
keep the cell iff its date lies in the entry's inclusive window, then emit one
line per `range(commits_per_day)` step.  The global window is never consulted
in the manual branch. -/
def entryLines (origin : Int) (cpd : Int) (eidx : Nat) (cols : List Int)
    (s t : Int) : List MLine :=
  cols.flatMap (colLines origin cpd eidx s t)

/-- Lines 71–76 then 78–100 for one entry: read the keys (possible
`KeyError`), then produce the entry's lines. -/
def processEntry (origin : Int) (cpd : Int) (eidx : Nat) (e : ManualEntry) :
    Except ManualErr (List MLine) :=
  match entryCols e with
  | .error err => .error err
  | .ok cols =>
    match entryWindow e with
    | .error err => .error err
    | .ok (s, t) => .ok (entryLines origin cpd eidx cols s t)

/-- The manual loop over `enumerate(manual)` starting at index `k`: lines
already emitted by earlier entries are kept even when a later entry raises. -/
def runManualAux (origin : Int) (cpd : Int) : Nat → List ManualEntry →
    List MLine × Option ManualErr
  | _, [] => ([], none)
  | k, e :: rest =>
    match processEntry origin cpd k e with
    | .error err => ([], some err)
    | .ok ls =>
      let out := runManualAux origin cpd (k + 1) rest
      (ls ++ out.1, out.2)

/-- The whole manual branch (lines 69–113): the emitted lines in order, and
the uncaught error that aborted the run, if any. -/
def runManual (origin : Int) (cpd : Int) (entries : List ManualEntry) :
    List MLine × Option ManualErr :=
  runManualAux origin cpd 0 entries

/-! ## Branch selection, lines 67–69 and 115 -/

/-- The outcome of the whole run, tagged by which branch executed. -/
inductive RunOut where
  | manualOut (out : List MLine × Option ManualErr)
  | glyphOut (out : Except GlyphErr (List GLine))

/-- Lines 67–69: `if manual:` — only a present *and non-empty*
`manual_positions` selects the manual branch; otherwise the glyph branch
(line 115 onward) runs. -/
def runMain (manual : Option (List ManualEntry)) (art : List (List Char))
    (start : Int) (endOpt : Option Int) (cpd : Int) : RunOut :=
  match manual with
  | some (e :: es) => .manualOut (runManual (sunday0 start) cpd (e :: es))
  | _ => .glyphOut (runGlyph art start endOpt cpd)

/-! ## The emission loop, lines 98–108 (and identically 152–160)

The file append, `git add` (staging) and `git commit` (checkpoint) calls are
modelled per sub-event: the line is recorded first (the file is mutated before
staging), then staging runs with `check=True` — an uncaught exception on
failure, aborting the run — then the commit runs inside `try/except`, whose
failure is only logged and the loop continues. -/

/-- Result of the emission loop: the lines appended, the count of checkpoint
failures that were logged, and whether a staging failure aborted the rest. -/
inductive EmitResult (α : Type) where
  | done (lines : List α) (warnings : Nat)
  | aborted (lines : List α) (warnings : Nat)

/-- The emission loop from call position `k`: `stage i` / `commit i` give the
success of the `i`-th staging / checkpoint call. -/
def emitAll {α : Type} (stage commit : Nat → Bool) : Nat → List α → EmitResult α
  | _, [] => .done [] 0
  | k, e :: rest =>
    if stage k then
      match emitAll stage commit (k + 1) rest with
      | .done ls w => .done (e :: ls) ((if commit k then 0 else 1) + w)
      | .aborted ls w => .aborted (e :: ls) ((if commit k then 0 else 1) + w)
    else .aborted [e] 0

/-! ## Derived notions used by the statements -/

/-- Position of a cell in the column-major traversal: `7*col + row`. -/
def cellKey (cr : Nat × Nat) : Nat := 7 * cr.1 + cr.2

/-- An entry is well-formed when reading its keys raises no `KeyError`. -/
def entryOk (e : ManualEntry) : Bool :=
  (match entryCols e with
   | .ok _ => true
   | .error _ => false) &&
  (match entryWindow e with
   | .ok _ => true
   | .error _ => false)

/-- The lines a single entry contributes (empty when its keys are missing). -/
def entryLinesOf (origin : Int) (cpd : Int) (i : Nat) (e : ManualEntry) :
    List MLine :=
  match processEntry origin cpd i e with
  | .ok ls => ls
  | .error _ => []

/-! ## Helper lemmas -/

theorem pairwise_flatMap_of {α β : Type} {R : β → β → Prop} {f : α → List β} :
    ∀ {l : List α}, (∀ x ∈ l, (f x).Pairwise R) →
      (l.Pairwise fun x y => ∀ a ∈ f x, ∀ b ∈ f y, R a b) →
      (l.flatMap f).Pairwise R := by
  intro l
  induction l with
  | nil => intro _ _; simp
  | cons x xs ih =>
    intro h1 h2
    rw [List.flatMap_cons, List.pairwise_append]
    rcases List.pairwise_cons.1 h2 with ⟨hx, hxs⟩
    refine ⟨h1 x (by simp), ih (fun y hy => h1 y (by simp [hy])) hxs, ?_⟩
    intro a ha b hb
    rcases List.mem_flatMap.1 hb with ⟨y, hy, hby⟩
    exact hx y hy a ha b hby

theorem width_cons (r : List Char) (rs : List (List Char)) :
    width (r :: rs) = max r.length (width rs) := rfl

theorem length_le_width {l : List Char} :
    ∀ {art : List (List Char)}, l ∈ art → l.length ≤ width art := by
  intro art
  induction art with
  | nil => intro h; cases h
  | cons r rs ih =>
    intro h
    rw [width_cons]
    rcases List.mem_cons.1 h with rfl | h
    · exact le_max_left _ _
    · exact le_trans (ih h) (le_max_right _ _)

theorem ljust_length (w : Nat) (l : List Char) :
    (ljust w l).length = max l.length w := by
  simp [ljust]
  omega

theorem ljust_blankRow (w : Nat) : ljust w (blankRow w) = blankRow w := by
  simp [ljust, blankRow]

theorem glyphCellsAll_pairwise (w : Nat) :
    (glyphCellsAll w).Pairwise fun p q => cellKey p < cellKey q := by
  unfold glyphCellsAll
  apply pairwise_flatMap_of
  · intro c _
    rw [List.pairwise_map]
    refine (List.pairwise_lt_range 7).imp ?_
    intro r r' h
    simp only [cellKey]
    omega
  · refine (List.pairwise_lt_range w).imp ?_
    intro c c' h a ha b hb
    simp only [List.mem_map, List.mem_range] at ha hb
    obtain ⟨r, hr, rfl⟩ := ha
    obtain ⟨r', hr', rfl⟩ := hb
    simp only [cellKey]
    omega

theorem glyphUnits_pairwise (art : List (List Char)) (start : Int)
    (endOpt : Option Int) :
    (glyphUnits art start endOpt).Pairwise fun p q => cellKey p < cellKey q :=
  List.Pairwise.sublist (List.filter_sublist _) (glyphCellsAll_pairwise (width art))

theorem mem_glyphSubs {origin : Int} {na : List (List Char)} {cpd : Int}
    {cr : Nat × Nat} {l : GLine} (h : l ∈ glyphSubs origin na cpd cr) :
    l.date = cellDate origin cr.1 cr.2 ∧ l.row = cr.2 ∧ l.col = cr.1 := by
  simp only [glyphSubs, List.mem_map, List.mem_range] at h
  obtain ⟨i, _, rfl⟩ := h
  exact ⟨rfl, rfl, rfl⟩

theorem glyphSubs_pairwise_ne (origin : Int) (na : List (List Char)) (cpd : Int)
    (cr : Nat × Nat) : (glyphSubs origin na cpd cr).Pairwise (· ≠ ·) := by
  unfold glyphSubs
  rw [List.pairwise_map]
  refine (List.pairwise_lt_range cpd.toNat).imp ?_
  intro i j hij he
  have := congrArg GLine.sub he
  simp only at this
  omega

theorem mem_rowSubs {origin cpd : Int} {eidx : Nat} {col : Int} {row : Nat}
    {l : MLine} (h : l ∈ rowSubs origin cpd eidx col row) :
    l.date = cellDate origin col row ∧ l.row = row ∧ l.col = col ∧
      l.entry = eidx := by
  simp only [rowSubs, List.mem_map, List.mem_range] at h
  obtain ⟨i, _, rfl⟩ := h
  exact ⟨rfl, rfl, rfl, rfl⟩

theorem mem_colLines {origin cpd : Int} {eidx : Nat} {s t col : Int} {l : MLine}
    (h : l ∈ colLines origin cpd eidx s t col) :
    l.col = col ∧ l.entry = eidx := by
  simp only [colLines, List.mem_flatMap] at h
  obtain ⟨row, _, hl⟩ := h
  exact ⟨(mem_rowSubs hl).2.2.1, (mem_rowSubs hl).2.2.2⟩

theorem mem_entryLines_entry {origin cpd : Int} {eidx : Nat} {cols : List Int}
    {s t : Int} {l : MLine} (h : l ∈ entryLines origin cpd eidx cols s t) :
    l.entry = eidx := by
  simp only [entryLines, List.mem_flatMap] at h
  obtain ⟨col, _, hl⟩ := h
  exact (mem_colLines hl).2

theorem rowSubs_pairwise_ne (origin cpd : Int) (eidx : Nat) (col : Int)
    (row : Nat) : (rowSubs origin cpd eidx col row).Pairwise (· ≠ ·) := by
  unfold rowSubs
  rw [List.pairwise_map]
  refine (List.pairwise_lt_range cpd.toNat).imp ?_
  intro i j hij he
  have := congrArg MLine.sub he
  simp only at this
  omega

theorem colLines_pairwise_ne (origin cpd : Int) (eidx : Nat) (s t col : Int) :
    (colLines origin cpd eidx s t col).Pairwise (· ≠ ·) := by
  unfold colLines
  apply pairwise_flatMap_of
  · intro row _
    exact rowSubs_pairwise_ne origin cpd eidx col row
  · refine List.Pairwise.sublist (List.filter_sublist _) ?_
    refine (List.pairwise_lt_range 7).imp ?_
    intro r r' hrr a ha b hb he
    have har := (mem_rowSubs ha).2.1
    have hbr := (mem_rowSubs hb).2.1
    rw [he] at har
    omega

theorem entryLines_pairwise_ne (origin cpd : Int) (eidx : Nat)
    {cols : List Int} (hnd : cols.Nodup) (s t : Int) :
    (entryLines origin cpd eidx cols s t).Pairwise (· ≠ ·) := by
  unfold entryLines
  apply pairwise_flatMap_of
  · intro col _
    exact colLines_pairwise_ne origin cpd eidx s t col
  · refine hnd.imp ?_
    intro c c' hcc a ha b hb he
    have hac := (mem_colLines ha).1
    have hbc := (mem_colLines hb).1
    rw [he] at hac
    exact hcc (hac ▸ hbc ▸ rfl)

theorem processEntry_ok_of_entryOk {e : ManualEntry} (h : entryOk e = true)
    (origin cpd : Int) (k : Nat) :
    ∃ ls, processEntry origin cpd k e = .ok ls := by
  unfold entryOk at h
  unfold processEntry
  cases hc : entryCols e with
  | error err => rw [hc] at h; simp at h
  | ok cols =>
    cases hw : entryWindow e with
    | error err => rw [hc, hw] at h; simp at h
    | ok st =>
      obtain ⟨s, t⟩ := st
      exact ⟨_, rfl⟩

theorem processEntry_error_of_entryOk_false {e : ManualEntry}
    (h : entryOk e = false) :
    ∃ err, ∀ (origin cpd : Int) (k : Nat),
      processEntry origin cpd k e = .error err := by
  unfold entryOk at h
  cases hc : entryCols e with
  | error err => exact ⟨err, fun origin cpd k => by unfold processEntry; rw [hc]⟩
  | ok cols =>
    cases hw : entryWindow e with
    | error err =>
      exact ⟨err, fun origin cpd k => by unfold processEntry; rw [hc, hw]⟩
    | ok st => rw [hc, hw] at h; simp at h

theorem processEntry_ok_entry {origin cpd : Int} {k : Nat} {e : ManualEntry}
    {ls : List MLine} (h : processEntry origin cpd k e = .ok ls) :
    ∀ l ∈ ls, l.entry = k := by
  unfold processEntry at h
  cases hc : entryCols e with
  | error err => rw [hc] at h; cases h
  | ok cols =>
    rw [hc] at h
    cases hw : entryWindow e with
    | error err => rw [hw] at h; cases h
    | ok st =>
      rw [hw] at h
      cases h
      intro l hl
      exact mem_entryLines_entry hl

theorem processEntry_ok_pairwise {origin cpd : Int} {k : Nat} {e : ManualEntry}
    {ls : List MLine} (h : processEntry origin cpd k e = .ok ls)
    (hnd : ∀ cols, entryCols e = .ok cols → cols.Nodup) :
    ls.Pairwise (· ≠ ·) := by
  unfold processEntry at h
  cases hc : entryCols e with
  | error err => rw [hc] at h; cases h
  | ok cols =>
    rw [hc] at h
    cases hw : entryWindow e with
    | error err => rw [hw] at h; cases h
    | ok st =>
      rw [hw] at h
      cases h
      exact entryLines_pairwise_ne origin cpd k (hnd cols hc) st.1 st.2

theorem runManualAux_entry_ge (origin cpd : Int) :
    ∀ (k : Nat) (entries : List ManualEntry) (l : MLine),
      l ∈ (runManualAux origin cpd k entries).1 → k ≤ l.entry := by
  intro k entries
  induction entries generalizing k with
  | nil => intro l h; simp [runManualAux] at h
  | cons e rest ih =>
    intro l h
    unfold runManualAux at h
    cases hpe : processEntry origin cpd k e with
    | error err => rw [hpe] at h; simp at h
    | ok ls =>
      rw [hpe] at h
      simp only [List.mem_append] at h
      rcases h with h | h
      · exact le_of_eq (processEntry_ok_entry hpe l h).symm
      · exact le_trans (Nat.le_succ k) (ih (k + 1) l h)

theorem runManualAux_pairwise_ne (origin cpd : Int) :
    ∀ (k : Nat) (entries : List ManualEntry),
      (∀ e ∈ entries, ∀ cols, entryCols e = .ok cols → cols.Nodup) →
      ((runManualAux origin cpd k entries).1).Pairwise (· ≠ ·) := by
  intro k entries
  induction entries generalizing k with
  | nil => intro _; simp [runManualAux]
  | cons e rest ih =>
    intro h
    unfold runManualAux
    cases hpe : processEntry origin cpd k e with
    | error err => simp
    | ok ls =>
      simp only
      rw [List.pairwise_append]
      refine ⟨processEntry_ok_pairwise hpe (h e (by simp)), ?_, ?_⟩
      · exact ih (k + 1) (fun e' he' => h e' (by simp [he']))
      · intro a ha b hb he
        have h1 := processEntry_ok_entry hpe a ha
        have h2 := runManualAux_entry_ge origin cpd (k + 1) rest b hb
        rw [he] at h1
        omega

theorem runManualAux_ok (origin cpd : Int) :
    ∀ (k : Nat) (entries : List ManualEntry),
      (∀ e ∈ entries, entryOk e = true) →
      runManualAux origin cpd k entries =
        ((entries.enumFrom k).flatMap fun p => entryLinesOf origin cpd p.1 p.2,
          none) := by
  intro k entries
  induction entries generalizing k with
  | nil => intro _; simp [runManualAux, List.enumFrom]
  | cons e rest ih =>
    intro h
    obtain ⟨ls, hls⟩ := processEntry_ok_of_entryOk (h e (by simp)) origin cpd k
    unfold runManualAux
    rw [hls, ih (k + 1) (fun e' he' => h e' (by simp [he'])),
      List.enumFrom_cons, List.flatMap_cons]
    simp [entryLinesOf, hls]

theorem runManualAux_append_bad (origin cpd : Int) {bad : ManualEntry}
    {err : ManualErr}
    (herr : ∀ (o c : Int) (k : Nat), processEntry o c k bad = .error err)
    (rest : List ManualEntry) :
    ∀ (k : Nat) (good : List ManualEntry), (∀ e ∈ good, entryOk e = true) →
      runManualAux origin cpd k (good ++ bad :: rest) =
        ((runManualAux origin cpd k good).1, some err) := by
  intro k good
  induction good generalizing k with
  | nil =>
    intro _
    simp [runManualAux, herr origin cpd k]
  | cons g good' ih =>
    intro hg
    obtain ⟨ls, hls⟩ := processEntry_ok_of_entryOk (hg g (by simp)) origin cpd k
    simp only [List.cons_append, runManualAux, hls, List.append_eq,
      ih (k + 1) (fun e he => hg e (by simp [he]))]

theorem emitAll_done {α : Type} (stage commit : Nat → Bool)
    (h : ∀ i, stage i = true) :
    ∀ (k : Nat) (evs : List α),
      ∃ w, emitAll stage commit k evs = .done evs w := by
  intro k evs
  induction evs generalizing k with
  | nil => exact ⟨0, rfl⟩
  | cons e rest ih =>
    obtain ⟨w, hw⟩ := ih (k + 1)
    exact ⟨(if commit k then 0 else 1) + w, by simp [emitAll, h k, hw]⟩

theorem emitAll_abort {α : Type} (stage commit : Nat → Bool) :
    ∀ (evs : List α) (k j : Nat), j < evs.length →
      (∀ i, i < j → stage (k + i) = true) → stage (k + j) = false →
      ∃ w, emitAll stage commit k evs = .aborted (evs.take (j + 1)) w := by
  intro evs
  induction evs with
  | nil => intro k j hj _ _; simp at hj
  | cons e rest ih =>
    intro k j hj hpre hfail
    cases j with
    | zero =>
      have h0 : stage k = false := by simpa using hfail
      exact ⟨0, by simp [emitAll, h0]⟩
    | succ j' =>
      have hk : stage k = true := by simpa using hpre 0 (Nat.succ_pos j')
      obtain ⟨w, hw⟩ := ih (k + 1) j' (by simpa using hj)
        (fun i hi => by
          have hx := hpre (i + 1) (by omega)
          have he : k + (i + 1) = k + 1 + i := by omega
          rw [he] at hx
          exact hx)
        (by
          have he : k + (j' + 1) = k + 1 + j' := by omega
          rw [he] at hfail
          exact hfail)
      exact ⟨(if commit k then 0 else 1) + w, by simp [emitAll, hk, hw]⟩

/-! ## Claim theorems -/

/-- Claim C3: for every start instant, the computed grid origin is on or
before the start, less than 7 days before it, and falls on the row-0 weekday
(Sunday, `weekday = 6` in the Monday-0 convention); the alignment is a total
function, defined for every integer date. -/
theorem grid_alignment_correct : ∀ start : Int,
    sunday0 start ≤ start ∧ start - sunday0 start < 7 ∧
      weekday (sunday0 start) = 6 := by
  intro s
  unfold sunday0 weekday
  omega

/-- Claim C4: normalization of a rendered glyph matrix with `r` rows: when
`r < 7` the output is exactly `⌊(7−r)/2⌋` blank rows, the input rows, then
`7−r−⌊(7−r)/2⌋` blank rows; when `r > 7` it is the first 7 input rows; when
`r = 7` it is the input unchanged apart from width padding; in all cases the
output has exactly 7 rows, each right-padded with blanks to the maximum input
row length. -/
theorem glyph_normalization_correct : ∀ art : List (List Char), art ≠ [] →
    (normalize art).length = 7 ∧
    (∀ row ∈ normalize art, row.length = width art) ∧
    (art.length < 7 → normalize art =
      List.replicate ((7 - art.length) / 2) (blankRow (width art)) ++
        art.map (ljust (width art)) ++
        List.replicate (7 - art.length - (7 - art.length) / 2)
          (blankRow (width art))) ∧
    (art.length > 7 → normalize art = (art.take 7).map (ljust (width art))) ∧
    (art.length = 7 → normalize art = art.map (ljust (width art))) := by
  intro art _
  refine ⟨?_, ?_, ?_, ?_, ?_⟩
  · unfold normalize
    rw [List.length_map]
    split_ifs with h1 h2
    · simp only [List.length_append, List.length_replicate]
      omega
    · rw [List.length_take]
      omega
    · omega
  · intro row hrow
    unfold normalize at hrow
    rw [List.mem_map] at hrow
    obtain ⟨r, hr, rfl⟩ := hrow
    rw [ljust_length]
    split_ifs at hr with h1 h2
    · simp only [List.mem_append, List.mem_replicate, blankRow] at hr
      rcases hr with (⟨_, rfl⟩ | hr) | ⟨_, rfl⟩
      · simp
      · exact Nat.max_eq_right (length_le_width hr)
      · simp
    · exact Nat.max_eq_right (length_le_width (List.take_subset 7 art hr))
    · exact Nat.max_eq_right (length_le_width hr)
  · intro h1
    unfold normalize
    rw [if_pos h1]
    simp [List.map_replicate, ljust_blankRow]
  · intro h2
    unfold normalize
    rw [if_neg (by omega), if_pos h2]
  · intro h3
    unfold normalize
    rw [if_neg (by omega), if_neg (by omega)]

/-- Witness for the normalization theorem at a concrete one-row matrix. -/
theorem glyph_normalization_correct_witness :
    (normalize [['X']]).length = 7 :=
  (glyph_normalization_correct [['X']] (by decide)).1

/-- Claim C10: an empty `manual_positions` list (like an absent one) is falsy,
so the run takes the glyph (Figlet) branch; only a non-empty list selects the
manual branch. -/
theorem empty_manual_positions_falls_back_to_glyph :
    (∀ (art : List (List Char)) (start : Int) (endOpt : Option Int)
        (cpd : Int),
      runMain (some []) art start endOpt cpd =
        RunOut.glyphOut (runGlyph art start endOpt cpd) ∧
      runMain none art start endOpt cpd =
        RunOut.glyphOut (runGlyph art start endOpt cpd)) ∧
    (∀ (e : ManualEntry) (es : List ManualEntry) (art : List (List Char))
        (start : Int) (endOpt : Option Int) (cpd : Int),
      runMain (some (e :: es)) art start endOpt cpd =
        RunOut.manualOut (runManual (sunday0 start) cpd (e :: es))) :=
  ⟨fun _ _ _ _ => ⟨rfl, rfl⟩, fun _ _ _ _ _ _ => rfl⟩

/-- Claim C7, counterexample: a render with one empty row has width 0, yet the
run succeeds with an empty schedule instead of failing with a pattern-empty
error as the claim requires. -/
theorem pattern_empty_counterexample :
    runGlyph [[]] 0 none 1 = Except.ok [] ∧ width [[]] = 0 ∧
      ([[]] : List (List Char)) ≠ [] :=
  ⟨rfl, rfl, by decide⟩

/-- Claim C7 as amended: zero rendered rows is a fatal pattern-empty error,
but a zero-width matrix is not detected — the run completes normally and
emits nothing. -/
theorem pattern_empty_handling :
    ∀ (start : Int) (endOpt : Option Int) (cpd : Int),
      runGlyph [] start endOpt cpd = Except.error GlyphErr.patternEmpty ∧
      (∀ art : List (List Char), art ≠ [] → width art = 0 →
        runGlyph art start endOpt cpd = Except.ok []) := by
  intro start endOpt cpd
  constructor
  · rfl
  · intro art hne hw
    unfold runGlyph
    rw [if_neg (by simp [List.isEmpty_iff, hne])]
    suffices h : glyphLines art start endOpt cpd = [] by rw [h]
    unfold glyphLines glyphUnits glyphCellsAll
    rw [hw]
    simp

/-- Witness for the amended C7 theorem at concrete inputs. -/
theorem pattern_empty_handling_witness :
    runGlyph [] 0 none 1 = Except.error GlyphErr.patternEmpty ∧
      runGlyph [[]] 0 none 1 = Except.ok [] :=
  ⟨(pattern_empty_handling 0 none 1).1,
    (pattern_empty_handling 0 none 1).2 [[]] (by decide) rfl⟩

/-- Claim C5, counterexample: `commits_per_day = 0` is not rejected — the
glyph run returns success with zero emitted lines even though a scheduling
unit exists, instead of failing with a multiplicity error. -/
theorem multiplicity_counterexample :
    runGlyph [['X']] 0 none 0 = Except.ok [] ∧
      glyphUnits [['X']] 0 none ≠ [] :=
  ⟨rfl, by decide⟩

/-- Claim C5 as amended: a non-positive `commits_per_day` is not validated;
it yields zero sub-events and the run completes without error; for any value,
each scheduling unit expands to sub-events whose sub-indices are exactly
`1, …, commits_per_day` (so `commits_per_day = n > 0` gives exactly `n`
sub-events per unit). -/
theorem multiplicity_behavior :
    ∀ (art : List (List Char)) (start : Int) (endOpt : Option Int) (cpd : Int),
      (art ≠ [] → ∃ ls, runGlyph art start endOpt cpd = Except.ok ls) ∧
      (cpd ≤ 0 → glyphLines art start endOpt cpd = []) ∧
      (∀ (origin : Int) (na : List (List Char)) (cr : Nat × Nat),
        (glyphSubs origin na cpd cr).map (fun l => l.sub) =
          List.range' 1 cpd.toNat) := by
  intro art start endOpt cpd
  refine ⟨?_, ?_, ?_⟩
  · intro hne
    exact ⟨_, by unfold runGlyph; rw [if_neg (by simp [List.isEmpty_iff, hne])]⟩
  · intro hle
    unfold glyphLines
    rw [List.flatMap_eq_nil_iff]
    intro cr _
    unfold glyphSubs
    rw [Int.toNat_of_nonpos hle]
    simp
  · intro origin na cr
    unfold glyphSubs
    simp [List.range'_eq_map_range, List.map_map, Function.comp, Nat.add_comm]

/-- Witness for the amended C5 theorem at concrete inputs. -/
theorem multiplicity_behavior_witness :
    (∃ ls, runGlyph [['X']] 0 none 0 = Except.ok ls) ∧
      glyphLines [['X']] 0 none 0 = [] ∧
      (glyphSubs 0 [] 0 (0, 0)).map (fun l => l.sub) =
        List.range' 1 (0 : Int).toNat :=
  ⟨(multiplicity_behavior [['X']] 0 none 0).1 (by decide),
    (multiplicity_behavior [['X']] 0 none 0).2.1 (by decide),
    (multiplicity_behavior [['X']] 0 none 0).2.2 0 [] (0, 0)⟩

/-- Claim C1, counterexample: with global `start_date` on day 2 (a Wednesday)
the grid origin is day −1; a manual entry whose window is exactly day −1
materializes a unit dated −1, which lies outside the global window
`[2, 2]` — the manual branch never consults the global window. -/
theorem manual_window_counterexample :
    runMain (some [⟨some [0], none, some (-1), some (-1)⟩]) [] 2 (some 2) 1 =
      RunOut.manualOut
        (runManual (sunday0 2) 1 [⟨some [0], none, some (-1), some (-1)⟩]) ∧
    (runManual (sunday0 2) 1 [⟨some [0], none, some (-1), some (-1)⟩]).1.map
        (fun l => l.date) = [-1] ∧
    inGlobalWindow 2 (some 2) (-1) = false :=
  ⟨rfl, by decide, by decide⟩

/-- Claim C1 as amended: a manual candidate date is materialized iff it lies
within the entry's own inclusive window; the global validity window is not
applied to manual entries. -/
theorem manual_entry_window_only :
    ∀ (origin cpd : Int) (eidx : Nat) (cols : List Int) (s t : Int)
      (l : MLine),
      l ∈ entryLines origin cpd eidx cols s t ↔
        ∃ col ∈ cols, ∃ row < 7, ∃ i < cpd.toNat,
          s ≤ cellDate origin col row ∧ cellDate origin col row ≤ t ∧
          l = { date := cellDate origin col row, row := row, col := col,
                sub := i + 1, total := cpd, entry := eidx } := by
  intro origin cpd eidx cols s t l
  simp only [entryLines, colLines, rowSubs, List.mem_flatMap, List.mem_filter,
    List.mem_map, List.mem_range, decide_eq_true_eq, not_or, not_lt]
  constructor
  · rintro ⟨col, hcol, row, ⟨hrow, hs, ht⟩, i, hi, rfl⟩
    exact ⟨col, hcol, row, hrow, i, hi, hs, ht, rfl⟩
  · rintro ⟨col, hcol, row, hrow, i, hi, hs, ht, rfl⟩
    exact ⟨col, hcol, row, ⟨hrow, hs, ht⟩, i, hi, rfl⟩

/-- Claim C2, counterexample: a manual entry declaring `cols = [1, 0]` emits
the column-1 dates before the column-0 dates, so the emitted sub-events of
this run are not in non-decreasing date order. -/
theorem ordering_counterexample :
    ¬ List.Pairwise (fun a b => a.date ≤ b.date)
        ((runManual 6 1 [⟨some [1, 0], none, some 0, some 100⟩]).1) := by
  decide

/-- Claim C2 as amended: glyph-branch sub-events are emitted in non-decreasing
date order (column-major traversal, sub-index ascending within a unit); the
manual branch emits in entry-declaration order, then the entry's declared
column order, then row order — which is the enumerated concatenation of the
per-entry lines and need not be date-sorted. -/
theorem emission_ordering :
    (∀ (art : List (List Char)) (start : Int) (endOpt : Option Int)
        (cpd : Int),
      (glyphLines art start endOpt cpd).Pairwise fun a b => a.date ≤ b.date) ∧
    (∀ (origin cpd : Int) (entries : List ManualEntry),
      (∀ e ∈ entries, entryOk e = true) →
      runManual origin cpd entries =
        (entries.enum.flatMap fun p => entryLinesOf origin cpd p.1 p.2,
          none)) := by
  constructor
  · intro art start endOpt cpd
    unfold glyphLines
    apply pairwise_flatMap_of
    · intro cr _
      unfold glyphSubs
      rw [List.pairwise_map]
      exact (List.pairwise_lt_range cpd.toNat).imp fun _ => le_refl _
    · refine (glyphUnits_pairwise art start endOpt).imp ?_
      intro p q hpq a ha b hb
      obtain ⟨had, _, _⟩ := mem_glyphSubs ha
      obtain ⟨hbd, _, _⟩ := mem_glyphSubs hb
      rw [had, hbd]
      unfold cellKey at hpq
      unfold cellDate
      omega
  · intro origin cpd entries h
    unfold runManual
    rw [runManualAux_ok origin cpd 0 entries h]
    rfl

/-- Witness for the amended C2 theorem at a concrete manual configuration. -/
theorem emission_ordering_witness :
    runManual 0 1 [(⟨some [0], none, some 0, some 100⟩ : ManualEntry)] =
      (([(⟨some [0], none, some 0, some 100⟩ : ManualEntry)].enum.flatMap
          fun p => entryLinesOf 0 1 p.1 p.2), none) :=
  emission_ordering.2 0 1 _ (by decide)

/-- Claim C6, counterexample: a run with a valid first entry followed by an
entry missing `end_date` raises the key error only when the bad entry is
reached — the first entry's sub-events were already emitted (not fail-fast,
not nothing-emitted); and an entry whose end date precedes its start date is
not an error at all: it yields an empty schedule and no error. -/
theorem entry_error_counterexample :
    (runManual 0 1 [⟨some [0], none, some 0, some 0⟩,
        ⟨none, some 0, some 0, none⟩]).2 =
      some (ManualErr.keyError "end_date") ∧
    (runManual 0 1 [⟨some [0], none, some 0, some 0⟩,
        ⟨none, some 0, some 0, none⟩]).1 ≠ [] ∧
    runManual 0 1 [⟨some [0], none, some 5, some 3⟩] = ([], none) := by
  decide

/-- Claim C6 as amended: a manual entry with a missing required key
(`col`/`cols`, `start_date` or `end_date`) raises an uncaught key error when
that entry is reached, keeping everything emitted by the earlier well-formed
entries; an entry whose end date precedes its start date is not an error and
contributes no scheduling units. -/
theorem entry_error_semantics :
    (∀ (origin cpd : Int) (good : List ManualEntry) (bad : ManualEntry)
        (rest : List ManualEntry),
      (∀ e ∈ good, entryOk e = true) → entryOk bad = false →
      ∃ err, runManual origin cpd (good ++ bad :: rest) =
        ((runManual origin cpd good).1, some err)) ∧
    (∀ (origin cpd : Int) (eidx : Nat) (cols : List Int) (s t : Int),
      t < s → entryLines origin cpd eidx cols s t = []) := by
  constructor
  · intro origin cpd good bad rest hg hb
    obtain ⟨err, herr⟩ := processEntry_error_of_entryOk_false hb
    exact ⟨err, runManualAux_append_bad origin cpd herr rest 0 good hg⟩
  · intro origin cpd eidx cols s t hts
    unfold entryLines
    rw [List.flatMap_eq_nil_iff]
    intro col _
    unfold colLines
    have hf : ((List.range 7).filter fun row =>
        decide (¬(cellDate origin col row < s ∨
          t < cellDate origin col row))) = [] := by
      rw [List.filter_eq_nil_iff]
      intro r _
      simp only [decide_eq_true_eq]
      push_neg
      omega
    rw [hf]
    rfl

/-- Witness for the amended C6 theorem at a concrete run. -/
theorem entry_error_semantics_witness :
    (∃ err, runManual 0 1 ([⟨some [0], none, some 0, some 0⟩] ++
        (⟨none, some 0, some 0, none⟩ : ManualEntry) :: []) =
      ((runManual 0 1 [⟨some [0], none, some 0, some 0⟩]).1, some err)) ∧
    entryLines 0 1 0 [0] 5 3 = [] :=
  ⟨entry_error_semantics.1 0 1 [⟨some [0], none, some 0, some 0⟩]
      ⟨none, some 0, some 0, none⟩ [] (by decide) (by decide),
    entry_error_semantics.2 0 1 0 [0] 5 3 (by decide)⟩

/-- Claim C8: when every staging call succeeds, the emitter processes every
sub-event to completion no matter how many checkpoint calls fail (checkpoint
failure is only a logged warning, never an abort); when a staging call fails,
the run aborts there, having processed exactly the sub-events up to and
including the failing one. -/
theorem emission_failure_policy :
    (∀ (α : Type) (evs : List α) (stage commit : Nat → Bool) (k : Nat),
      (∀ i, stage i = true) →
      ∃ w, emitAll stage commit k evs = EmitResult.done evs w) ∧
    (∀ (α : Type) (evs : List α) (stage commit : Nat → Bool) (j : Nat),
      j < evs.length → (∀ i, i < j → stage i = true) → stage j = false →
      ∃ w, emitAll stage commit 0 evs =
        EmitResult.aborted (evs.take (j + 1)) w) := by
  constructor
  · intro α evs stage commit k h
    exact emitAll_done stage commit h k evs
  · intro α evs stage commit j hj hpre hfail
    refine emitAll_abort stage commit evs 0 j hj ?_ ?_
    · intro i hi
      simpa using hpre i hi
    · simpa using hfail

/-- Witness for the C8 theorem: an all-staging-success run with every
checkpoint failing still completes, and a staging failure at call 1 aborts
after two sub-events. -/
theorem emission_failure_policy_witness :
    (∃ w, emitAll (fun _ => true) (fun _ => false) 0 [0, 1] =
      EmitResult.done [0, 1] w) ∧
    (∃ w, emitAll (fun i => decide (i < 1)) (fun _ => true) 0 [0, 1, 2] =
      EmitResult.aborted ([0, 1, 2].take 2) w) :=
  ⟨emission_failure_policy.1 Nat [0, 1] (fun _ => true) (fun _ => false) 0
      (fun _ => rfl),
    emission_failure_policy.2 Nat [0, 1, 2] (fun i => decide (i < 1))
      (fun _ => true) 1 (by decide) (fun i hi => by simp [hi]) (by decide)⟩

/-- Claim C9, counterexample: one manual entry declaring the same column twice
(`cols = [0, 0]`) appends two byte-identical content lines — the same date,
row, column, sub-index and entry index — so not every pair of emitted lines
differs. -/
theorem line_uniqueness_counterexample :
    ¬ ((runManual 6 1 [⟨some [0, 0], none, some 6, some 6⟩]).1).Nodup ∧
      ((runManual 6 1 [⟨some [0, 0], none, some 6, some 6⟩]).1).length = 2 := by
  decide

/-- Claim C9 as amended: in the glyph branch all appended lines of one run are
pairwise distinct; in the manual branch they are pairwise distinct provided no
single entry lists the same column more than once (columns repeated across
different entries are distinguished by the entry index in the line). -/
theorem line_uniqueness :
    (∀ (art : List (List Char)) (start : Int) (endOpt : Option Int)
        (cpd : Int), (glyphLines art start endOpt cpd).Nodup) ∧
    (∀ (origin cpd : Int) (entries : List ManualEntry),
      (∀ e ∈ entries, ∀ cols, entryCols e = .ok cols → cols.Nodup) →
      ((runManual origin cpd entries).1).Nodup) := by
  constructor
  · intro art start endOpt cpd
    unfold glyphLines
    apply pairwise_flatMap_of
    · intro cr _
      exact glyphSubs_pairwise_ne (sunday0 start) (normalize art) cpd cr
    · refine (glyphUnits_pairwise art start endOpt).imp ?_
      intro p q hpq a ha b hb he
      obtain ⟨_, har, hac⟩ := mem_glyphSubs ha
      obtain ⟨_, hbr, hbc⟩ := mem_glyphSubs hb
      have h1 : p.2 = q.2 := by rw [← har, he, hbr]
      have h2 : p.1 = q.1 := by rw [← hac, he, hbc]
      unfold cellKey at hpq
      omega
  · intro origin cpd entries h
    exact runManualAux_pairwise_ne origin cpd 0 entries h

/-- Witness for the amended C9 theorem at a concrete duplicate-free run. -/
theorem line_uniqueness_witness :
    ((runManual 6 1 [(⟨some [0], none, some 6, some 6⟩ : ManualEntry)]).1).Nodup :=
  line_uniqueness.2 6 1 [⟨some [0], none, some 6, some 6⟩]
    (by
      intro e he cols hc
      simp only [List.mem_singleton] at he
      subst he
      simp only [entryCols] at hc
      cases hc
      decide)

end GenerateArt
